import Mathlib

set_option autoImplicit false

/-!
Verification development for the result transformation and rendering pipeline
of `modules/report.py` (class `Report`).  Python dictionaries are embedded as
insertion-ordered association spines inside a single dynamic value type `Val`;
each function of the source is translated into a structurally recursive Lean
definition over `Val`.  Fallible code (the `KeyError` raised by `del` or by a
missing lookup) is modelled by an explicit `Option String` error slot that,
like a propagating Python exception, also carries the mutations already made.
-/

/-- Values of the dynamic (Python-like) data model used by `modules/report.py`:
strings, numbers, `None`, insertion-ordered dictionaries (`dnil`/`dcons`
spines) and lists (`lnil`/`lcons` spines). -/
inductive Val : Type where
  | vstr : String → Val
  | vnat : Nat → Val
  | vnone : Val
  | dnil : Val
  | dcons : String → Val → Val → Val
  | lnil : Val
  | lcons : Val → Val → Val
deriving DecidableEq

/-- Build a dictionary value from a list of entries. -/
def vdict : List (String × Val) → Val
  | [] => .dnil
  | (k, v) :: rest => .dcons k v (vdict rest)

/-- Build a list value from a list of values. -/
def vlist : List Val → Val
  | [] => .lnil
  | v :: rest => .lcons v (vlist rest)

/-- Python `d[k]` / `d.get(k)`: first entry with the given key, if any. -/
def lookupD : Val → String → Option Val
  | .dcons k v rest, key => if k = key then some v else lookupD rest key
  | _, _ => none

/-- Python `k in d`. -/
def hasKey (d : Val) (k : String) : Bool := (lookupD d k).isSome

/-- Python `d[k] = v`: replace in place if the key exists, else append. -/
def insertD : Val → String → Val → Val
  | .dcons k v rest, key, val =>
      if k = key then .dcons key val rest else .dcons k v (insertD rest key val)
  | _, key, val => .dcons key val .dnil

/-- Python `del d[k]` (on a key known to exist) and the no-op on a missing
key: remove the first entry with the given key. -/
def eraseD : Val → String → Val
  | .dcons k v rest, key => if k = key then rest else .dcons k v (eraseD rest key)
  | d, _ => d

/-- Python `d.update(d2)`: fold the entries of `d2` into `d`, overwriting on
key collision. -/
def updateD : Val → Val → Val
  | d, .dcons k v rest => updateD (insertD d k v) rest
  | d, _ => d

/-- Python `str.lower()` (restricted to the ASCII case mapping, which is all
the pipeline's reserved keys need). -/
def lowerStr (s : String) : String := ⟨s.data.map Char.toLower⟩

/-- Insertion into `requests.structures.CaseInsensitiveDict`: keys equal up to
lower-casing denote the same slot; the stored key becomes the newly inserted
one and the slot keeps its position. -/
def ciInsertD : Val → String → Val → Val
  | .dcons k v rest, key, val =>
      if lowerStr k = lowerStr key then .dcons key val rest
      else .dcons k v (ciInsertD rest key val)
  | _, key, val => .dcons key val .dnil

/-- Auxiliary fold for `cidOf`. -/
def cidOfAux : Val → Val → Val
  | acc, .dcons k v rest => cidOfAux (ciInsertD acc k v) rest
  | acc, _ => acc

/-- `CaseInsensitiveDict(d)`: insert the entries of `d` in order into an empty
case-insensitive dictionary. -/
def cidOf (d : Val) : Val := cidOfAux .dnil d

/-- The keys of a dictionary value, in order. -/
def dictKeys : Val → List String
  | .dcons k _ rest => k :: dictKeys rest
  | _ => []

/-- The entries of a dictionary value, in order. -/
def entriesOf : Val → List (String × Val)
  | .dcons k v rest => (k, v) :: entriesOf rest
  | _ => []

/-- Python truthiness of a value (`if v:`). -/
def truthy : Val → Bool
  | .vstr s => s ≠ ""
  | .vnat n => n ≠ 0
  | .vnone => false
  | .dnil => false
  | .dcons _ _ _ => true
  | .lnil => false
  | .lcons _ _ => true

/-- Whether a value is a proper dictionary spine (ends in `dnil`). -/
def isDictSpine : Val → Bool
  | .dnil => true
  | .dcons _ _ rest => isDictSpine rest
  | _ => false

/-- All values of a dictionary satisfy the boolean predicate. -/
def allVals (p : Val → Bool) : Val → Bool
  | .dcons _ v rest => p v && allVals p rest
  | _ => true

/-- Map a function over the values of a dictionary, keeping keys and order
(the shape of Python loops that reassign `d[k] = f(d[k])` for every key). -/
def mapVals (f : Val → Val) : Val → Val
  | .dcons k v rest => .dcons k (f v) (mapVals f rest)
  | d => d

/-- Append two dictionary spines. -/
def concatD : Val → Val → Val
  | .dcons k v rest, tail => .dcons k v (concatD rest tail)
  | _, tail => tail

/-- Abstract model of `pprint.pformat(..., indent=2)`: a deterministic
rendering of a value as text.  The exact spacing of Python's pretty-printer is
not modelled; the pipeline only stores and compares these strings. -/
def pformat : Val → String
  | .vstr s => "'" ++ s ++ "'"
  | .vnat n => Nat.repr n
  | .vnone => "None"
  | .dnil => "\x7b\x7d"
  | .dcons k v rest => "\x7b'" ++ k ++ "': " ++ pformat v ++ " | " ++ pformat rest ++ "\x7d"
  | .lnil => "[]"
  | .lcons v rest => "[" ++ pformat v ++ " | " ++ pformat rest ++ "]"

/-- Modelled from the spec: `utils.validation.rec_search_key` (imported by
`report.py` but not among the given sources).  Pre-order search producing all
values stored under the given key at any depth; "first match per branch wins –
once a `mitigation` key is found in a subtree, its children are not scanned
further".  The null markers the spec mentions are omitted; the caller in
`Report.run` filters them out anyway. -/
def rec_search_key (key : String) : Val → List Val
  | .dcons k v rest =>
      (if k = key then [v] else rec_search_key key v) ++ rec_search_key key rest
  | .lcons v rest => rec_search_key key v ++ rec_search_key key rest
  | _ => []

/-- Whether a pruned branch counts as empty. -/
def emptyBranch : Val → Bool
  | .dnil => true
  | .lnil => true
  | .vnone => true
  | _ => false

/-- Modelled from the spec: `utils.prune.pruner` (imported by `report.py` but
not among the given sources); "removes empty branches from a results tree". -/
def pruner : Val → Val
  | .dcons k v rest =>
      let v' := pruner v
      let rest' := pruner rest
      if emptyBranch v' then rest' else .dcons k v' rest'
  | .lcons v rest =>
      let v' := pruner v
      let rest' := pruner rest
      if emptyBranch v' then rest' else .lcons v' rest'
  | x => x

/-- State threaded through the stateful stages of `Report.run`: the per-host
results tree, the module catalogue, and a pending `KeyError`, if one was
raised (the fields keep the mutations made before the error, exactly like
Python's in-place mutation plus exception propagation). -/
structure RState where
  results : Val
  modules : Val
  err : Option String
deriving DecidableEq

/-- One host of `Report.__extract_results`: pop `loaded_modules` into the
catalogue (via `dict.update`), then unwrap the host record to its `results`
sub-key; a missing `results` key raises `KeyError` after the pop already
happened.  Hosts without `loaded_modules` are untouched. -/
def extract_step (st : RState) (hostname : String) : RState :=
  if st.err.isSome then st
  else
    let r0 := (lookupD st.results hostname).getD .vnone
    match lookupD r0 ("loaded_modules") with
    | some lm =>
        let mods := updateD st.modules lm
        let r1 := eraseD r0 ("loaded_modules")
        match lookupD r1 ("results") with
        | some rv => ⟨insertD st.results hostname rv, mods, none⟩
        | none => ⟨insertD st.results hostname r1, mods, some ("KeyError: results")⟩
    | none => st

/-- `Report.__extract_results`: iterate over the hosts of the tree. -/
def extract_results (res : Val) : RState :=
  (dictKeys res).foldl extract_step ⟨res, .dnil, none⟩

/-- Sheet loop of the compliance block of `Report.run`: for every sheet of the
compliance module containing a `mitigation` key, register the synthetic module
`module ++ "_" ++ sheet` in the catalogue (with empty-string metadata) and
copy the sheet into the host record; other sheets are only debug-logged. -/
def flatten_sheets (module : String) : Val → Val → Val → Val × Val
  | .dcons sheet sval rest, r, mods =>
      if hasKey sval ("mitigation") then
        flatten_sheets module rest
          (insertD r (module ++ "_" ++ sheet) sval)
          (insertD mods (module ++ "_" ++ sheet) (.vstr ("")))
      else
        flatten_sheets module rest r mods
  | _, r, mods => (r, mods)

/-- One host of the compliance block of `Report.run`: process the sheets when
`results[hostname].get(module)` is truthy, then run the unconditional
`del results[hostname][module]`, which raises `KeyError` when the host record
has no entry for the compliance module. -/
def flatten_host_step (module : String) (st : RState) (hostname : String) : RState :=
  if st.err.isSome then st
  else
    let r0 := (lookupD st.results hostname).getD .vnone
    let pr :=
      match lookupD r0 module with
      | some mv => if truthy mv then flatten_sheets module mv r0 st.modules else (r0, st.modules)
      | none => (r0, st.modules)
    if hasKey pr.1 module then
      ⟨insertD st.results hostname (eraseD pr.1 module), pr.2, none⟩
    else
      ⟨insertD st.results hostname pr.1, pr.2, some ("KeyError: " ++ module)⟩

/-- Compliance block of `Report.run`: when the catalogue declares
`compare_one` or `compare_many` (preferring `compare_one`), flatten the sheets
of that module for every host and finally delete the module from the
catalogue. -/
def compliance_flatten (results mods : Val) : RState :=
  if hasKey mods ("compare_one") || hasKey mods ("compare_many") then
    let module := if hasKey mods ("compare_one") then ("compare_one") else ("compare_many")
    let st := (dictKeys results).foldl (flatten_host_step module) ⟨results, mods, none⟩
    if st.err.isSome then st
    else ⟨st.results, eraseD st.modules module, none⟩
  else ⟨results, mods, none⟩

/-- Raw/finding split of one module result (the body of the last loop of
`Report.run`): copy the result minus a top-level `mitigation` key as the raw
payload, replace the result by the last non-null value produced by
`rec_search_key "mitigation"` (keeping the original when none is found), then
attach the raw payload under `raw`. -/
def split_module (mres : Val) : Val :=
  let raw := eraseD mres ("mitigation")
  let found := (rec_search_key ("mitigation") mres).filter (fun m => m ≠ .vnone)
  let replaced :=
    match found.getLast? with
    | some m => m
    | none => mres
  insertD replaced ("raw") raw

/-- Raw/finding split over the whole tree: applied to every module result of
every host. -/
def raw_finding_split (results : Val) : Val :=
  mapVals (fun hostRec => mapVals split_module hostRec) results

/-- A module aggregate of `Report.__modules_report_formatter`: the dictionary
`out[module]` together with whether it currently is a `CaseInsensitiveDict`
(it becomes one as soon as some host's `Entry` payload is assigned). -/
structure Agg where
  val : Val
  isCI : Bool
deriving DecidableEq

/-- `out[module][k] = v`: case-insensitive insertion once the aggregate is a
`CaseInsensitiveDict`, plain insertion before. -/
def aggSet (a : Agg) (k : String) (v : Val) : Agg :=
  if a.isCI then ⟨ciInsertD a.val k v, a.isCI⟩ else ⟨insertD a.val k v, a.isCI⟩

/-- Host loop of `Report.__modules_report_formatter` for one module: collect
the hosts' `raw` payloads keyed by hostname, replace the aggregate wholesale
by `CaseInsensitiveDict(entry)` whenever a host's result carries `Entry`, and
append each hostname (if absent) to the `vuln_hosts` list. -/
def moduleHostLoop (module : String) : Val → Agg → Val → List String → Agg × Val × List String
  | .dcons hostname hostRec rest, agg, raws, hosts =>
      match lookupD hostRec module with
      | some mres =>
          let raws' :=
            match lookupD mres ("raw") with
            | some rv => insertD raws hostname rv
            | none => raws
          let agg' :=
            match lookupD mres ("Entry") with
            | some ev => Agg.mk (cidOf ev) true
            | none => agg
          let hosts' := if hostname ∈ hosts then hosts else hosts ++ [hostname]
          moduleHostLoop module rest agg' raws' hosts'
      | none => moduleHostLoop module rest agg raws hosts
  | _, agg, raws, hosts => (agg, raws, hosts)

/-- Lookup in the association list of module aggregates. -/
def findAgg : List (String × Agg) → String → Option Agg
  | [], _ => none
  | (k, a) :: rest, key => if k = key then some a else findAgg rest key

/-- Replace (in place) or append a module aggregate. -/
def setAgg : List (String × Agg) → String → Agg → List (String × Agg)
  | [], key, a => [(key, a)]
  | (k, b) :: rest, key, a => if k = key then (key, a) :: rest else (k, b) :: setAgg rest key a

/-- Remove the first aggregate stored under the key. -/
def eraseAgg : List (String × Agg) → String → List (String × Agg)
  | [], _ => []
  | (k, b) :: rest, key => if k = key then rest else (k, b) :: eraseAgg rest key

/-- Final bookkeeping of one formatter module: `if not out[module]: del
out[module]`, otherwise store the aggregate. -/
def finalizeAgg (out1 : List (String × Agg)) (module : String) (agg3 : Agg) :
    List (String × Agg) :=
  if agg3.val = .dnil then eraseAgg out1 module else setAgg out1 module agg3

/-- One module of `Report.__modules_report_formatter`: initialise `out[module]`
to an empty dictionary if absent, run the host loop, attach the pretty-printed
raw collection and the `hosts` list when non-empty, and delete the aggregate
again when it ended up empty. -/
def modules_report_step (results : Val) (out : List (String × Agg)) (module : String) :
    List (String × Agg) :=
  let out1 := if (findAgg out module).isSome then out else out ++ [(module, Agg.mk .dnil false)]
  let agg0 := (findAgg out1 module).getD (Agg.mk .dnil false)
  let hl := moduleHostLoop module results agg0 .dnil []
  let agg2 := if hl.2.1 ≠ .dnil then aggSet hl.1 ("raw") (.vstr (pformat hl.2.1)) else hl.1
  let agg3 := if hl.2.2 ≠ [] then aggSet agg2 ("hosts") (vlist (hl.2.2.map Val.vstr)) else agg2
  finalizeAgg out1 module agg3

/-- The module loop of `Report.__modules_report_formatter`. -/
def modules_report_formatter_aux (results : Val) : List String → List (String × Agg) → List (String × Agg)
  | [], out => out
  | module :: rest, out => modules_report_formatter_aux results rest (modules_report_step results out module)

/-- `Report.__modules_report_formatter`. -/
def modules_report_formatter (results : Val) (modules : List String) : Val :=
  vdict ((modules_report_formatter_aux results modules []).map (fun p => (p.1, p.2.val)))

/-- Module loop of `Report.__hosts_report_formatter` for one host: a module is
emitted only when its result carries `Entry`; its raw payload, when truthy, is
pretty-printed under `raw` inside the `CaseInsensitiveDict` wrapping the
`Entry` payload. -/
def hostModulesLoop : Val → Val → Val
  | .dcons module mres rest, hostOut =>
      let raw_results :=
        match lookupD mres ("raw") with
        | some rv => rv
        | none => .dnil
      let hostOut' :=
        match lookupD mres ("Entry") with
        | some ev =>
            let entry := cidOf ev
            let entry :=
              if truthy raw_results then ciInsertD entry ("raw") (.vstr (pformat raw_results))
              else entry
            insertD hostOut module entry
        | none => hostOut
      hostModulesLoop rest hostOut'
  | _, hostOut => hostOut

/-- Host loop of `Report.__hosts_report_formatter`: every hostname of the
input is given an (initially empty) entry in the output. -/
def hosts_report_formatter_aux : Val → Val → Val
  | .dcons hostname hostRec rest, out =>
      let out1 := if hasKey out hostname then out else insertD out hostname .dnil
      let hostOut := hostModulesLoop hostRec ((lookupD out1 hostname).getD .dnil)
      hosts_report_formatter_aux rest (insertD out1 hostname hostOut)
  | _, out => out

/-- `Report.__hosts_report_formatter`. -/
def hosts_report_formatter (results : Val) : Val :=
  hosts_report_formatter_aux results .dnil

/-- The data stages of `Report.run` up to view formatting: extraction, pruning,
compliance flattening, raw/finding split.  A `KeyError` raised by a stage
aborts the pipeline. -/
def report_pipeline (input : Val) : RState :=
  let e := extract_results input
  match e.err with
  | some _ => e
  | none =>
      let f := compliance_flatten (pruner e.results) e.modules
      match f.err with
      | some _ => f
      | none => ⟨raw_finding_split f.results, f.modules, none⟩

/-- `Report.run` with `mode=MODULES`: the module-grouped view of the processed
tree, over the module list `list(modules.keys())`; `none` when a stage raised. -/
def modules_view (input : Val) : Option Val :=
  let p := report_pipeline input
  match p.err with
  | none => some (modules_report_formatter p.results (dictKeys p.modules))
  | some _ => none

/-- The synthetic host-record entries the compliance block creates for the
sheets of a compliance module that contain a `mitigation` key. -/
def synthRecOf (module : String) : Val → Val
  | .dcons sheet sval rest =>
      if hasKey sval ("mitigation") then .dcons (module ++ "_" ++ sheet) sval (synthRecOf module rest)
      else synthRecOf module rest
  | _ => .dnil

/-- The synthetic catalogue entries the compliance block creates. -/
def synthCatOf (module : String) : Val → Val
  | .dcons sheet sval rest =>
      if hasKey sval ("mitigation") then .dcons (module ++ "_" ++ sheet) (.vstr ("")) (synthCatOf module rest)
      else synthCatOf module rest
  | _ => .dnil

/-- The `Entry` payload surviving the host loop of the module-grouped
formatter is the last one seen in host order; this computes it directly. -/
def lastEntryFor (module : String) : Val → Option Val
  | .dcons _ hostRec rest =>
      (match lastEntryFor module rest with
       | some e => some e
       | none =>
          match lookupD hostRec module with
          | some mres => lookupD mres ("Entry")
          | none => none)
  | _ => none

/-- Some entry of the host record stored under the given module key carries an
`Entry` payload. -/
def hasEntryModule : Val → String → Bool
  | .dcons k v rest, m => (decide (k = m) && hasKey v ("Entry")) || hasEntryModule rest m
  | _, _ => false

/-! ### Concrete inputs used in the claim theorems -/

/-- The input of the spec scenario behind claim C1. -/
def c1_input : Val :=
  vdict [("h1", vdict [("loaded_modules", vdict [("m1", .dnil)]),
      ("results", vdict [("m1", vdict [("mitigation", vdict [("risk", .vstr ("high"))]),
        ("other", .vnat 1)])])])]

/-- The module-grouped view produced for `c1_input`. -/
def c1_out : Val := (modules_view c1_input).getD .vnone

/-- A pruned results tree whose only host has no entry for the compliance
module `compare_one`. -/
def c2_results : Val := vdict [("h1", vdict [("othermod", vdict [("x", .vnat 1)])])]

/-- A catalogue declaring `compare_one` alongside another module. -/
def c2_mods : Val := vdict [("compare_one", .dnil), ("othermod", .dnil)]

/-- A tree whose single module result carries no mitigation at any depth. -/
def c3_tree : Val := vdict [("h1", vdict [("m1", vdict [("other", .vnat 1)])])]

/-- A tree whose single module result has neither `raw` nor `Entry`. -/
def c4_tree : Val := vdict [("h1", vdict [("m1", vdict [("x", .vnat 1)])])]

/-- A second such tree, used to exhibit a retained bookkeeping-only entry. -/
def c4b_tree : Val := vdict [("hA", vdict [("m2", vdict [("y", .vnat 2)])])]

/-- Two hosts carrying the same module with different `Entry` payloads. -/
def c5_tree : Val :=
  vdict [("h1", vdict [("m1", vdict [("Entry", vdict [("a", .vnat 1)])])]),
         ("h2", vdict [("m1", vdict [("Entry", vdict [("b", .vnat 2)])])])]

/-- Two hosts declaring the same module identifier with different metadata. -/
def c6_tree : Val :=
  vdict [("ha", vdict [("loaded_modules", vdict [("m1", .vstr ("a"))]), ("results", .dnil)]),
         ("hb", vdict [("loaded_modules", vdict [("m1", .vstr ("b"))]), ("results", .dnil)])]

/-- A tree whose `results` envelope itself contains a `loaded_modules` key. -/
def c7_tree : Val :=
  vdict [("h1", vdict [("loaded_modules", .dnil),
      ("results", vdict [("loaded_modules", vdict [("m2", .vnat 1)]), ("results", .dnil)])])]

/-- The sheets of the C8 scenario: `s1` has a mitigation, `s2` has none. -/
def c8_sheets : Val :=
  vdict [("s1", vdict [("mitigation", vdict [("x", .vnat 1)])]),
         ("s2", vdict [("no_mitigation_here", .vnat 2)])]

/-- The host record of the C8 scenario. -/
def c8_rec : Val := vdict [("compare_one", c8_sheets)]

/-- The catalogue of the C8 scenario. -/
def c8_mods : Val := vdict [("compare_one", .vstr (""))]

/-- A host record with `loaded_modules` but no `results` key. -/
def c9_rec : Val := vdict [("loaded_modules", vdict [("m1", .dnil)])]

/-- A tree whose single module result has a raw payload but no `Entry`. -/
def c10_tree : Val := vdict [("hA", vdict [("m1", vdict [("raw", vdict [("x", .vnat 1)])])])]

/-! ### Basic lemmas about the dictionary operations -/

theorem hasKey_mem_dictKeys (d : Val) (k : String) :
    hasKey d k = true ↔ k ∈ dictKeys d := by
  induction d
  case dcons k' v' rest ih1 ih2 =>
    simp only [hasKey, lookupD, dictKeys, List.mem_cons]
    by_cases h : k' = k
    · simp [h]
    · simp only [if_neg h]
      constructor
      · intro hs
        exact Or.inr (ih2.mp hs)
      · intro hor
        rcases hor with h1 | h2
        · exact absurd h1.symm h
        · exact ih2.mpr h2
  all_goals simp [hasKey, lookupD, dictKeys]

theorem hasKey_false_lookupD (d : Val) (k : String) (h : hasKey d k = false) :
    lookupD d k = none := by
  cases hl : lookupD d k with
  | none => rfl
  | some v => simp [hasKey, hl] at h

theorem lookupD_insertD_self (d : Val) (k : String) (v : Val) :
    lookupD (insertD d k v) k = some v := by
  induction d
  case dcons k' v' rest ih1 ih2 =>
    by_cases h : k' = k
    · simp [insertD, h, lookupD]
    · simp [insertD, h, lookupD, ih2]
  all_goals simp [insertD, lookupD]

theorem lookupD_insertD_ne (d : Val) (k key : String) (v : Val) (h : k ≠ key) :
    lookupD (insertD d k v) key = lookupD d key := by
  induction d
  case dcons k' v' rest ih1 ih2 =>
    by_cases h' : k' = k
    · simp [insertD, h', lookupD, h]
    · simp only [insertD, if_neg h', lookupD]
      by_cases h'' : k' = key
      · simp [h'']
      · simp [h'', ih2]
  all_goals simp [insertD, lookupD, h]

theorem hasKey_insertD (d : Val) (k key : String) (v : Val) :
    hasKey (insertD d k v) key = (decide (k = key) || hasKey d key) := by
  by_cases h : k = key
  · subst h; simp [hasKey, lookupD_insertD_self]
  · simp [hasKey, lookupD_insertD_ne d k key v h, h]

theorem lookupD_eraseD_ne (d : Val) (k key : String) (h : k ≠ key) :
    lookupD (eraseD d k) key = lookupD d key := by
  induction d
  case dcons k' v' rest ih1 ih2 =>
    by_cases h' : k' = k
    · subst h'
      simp [eraseD, lookupD, h]
    · simp only [eraseD, if_neg h', lookupD]
      by_cases h'' : k' = key
      · simp [h'']
      · simp [h'', ih2]
  all_goals simp [eraseD]

theorem eraseD_not_hasKey (d : Val) (k : String) (h : hasKey d k = false) :
    eraseD d k = d := by
  induction d
  case dcons k' v' rest ih1 ih2 =>
    have hl := hasKey_false_lookupD _ _ h
    simp only [lookupD] at hl
    by_cases h' : k' = k
    · simp [h'] at hl
    · rw [if_neg h'] at hl
      simp [eraseD, if_neg h', ih2 (by simp [hasKey, hl])]
  all_goals simp [eraseD]

theorem hasKey_eraseD_self (d : Val) (k : String) (hnd : (dictKeys d).Nodup) :
    hasKey (eraseD d k) k = false := by
  induction d
  case dcons k' v' rest ih1 ih2 =>
    simp only [dictKeys, List.nodup_cons] at hnd
    by_cases h' : k' = k
    · subst h'
      have he : eraseD (Val.dcons k' v' rest) k' = rest := by simp [eraseD]
      rw [he]
      cases hk : hasKey rest k'
      · rfl
      · exact absurd ((hasKey_mem_dictKeys rest k').mp hk) hnd.1
    · simp only [eraseD, if_neg h', hasKey, lookupD, if_neg h']
      simpa [hasKey] using ih2 hnd.2
  all_goals simp [eraseD, hasKey, lookupD]

theorem concatD_assoc (a b c : Val) :
    concatD (concatD a b) c = concatD a (concatD b c) := by
  induction a
  case dcons k v rest ih1 ih2 => simp [concatD, ih2]
  all_goals simp [concatD]

theorem concatD_dnil (d : Val) (h : isDictSpine d = true) :
    concatD d .dnil = d := by
  induction d
  case dcons k v rest ih1 ih2 =>
    simp only [isDictSpine] at h
    simp [concatD, ih2 h]
  case dnil => simp [concatD]
  all_goals simp [isDictSpine] at h

theorem insertD_fresh (d : Val) (k : String) (v : Val) (h : hasKey d k = false) :
    insertD d k v = concatD d (.dcons k v .dnil) := by
  induction d
  case dcons k' v' rest ih1 ih2 =>
    have hl := hasKey_false_lookupD _ _ h
    simp only [lookupD] at hl
    by_cases h' : k' = k
    · simp [h'] at hl
    · rw [if_neg h'] at hl
      simp [insertD, if_neg h', concatD, ih2 (by simp [hasKey, hl])]
  all_goals simp [insertD, concatD]

theorem eraseD_concatD (d t : Val) (k : String) (h : hasKey t k = false) :
    eraseD (concatD d t) k = concatD (eraseD d k) t := by
  induction d
  case dcons k' v' rest ih1 ih2 =>
    by_cases h' : k' = k
    · simp [concatD, eraseD, h']
    · simp [concatD, eraseD, h', ih2]
  all_goals simp [concatD, eraseD, eraseD_not_hasKey t k h]

theorem hasKey_concatD (d t : Val) (k : String) :
    hasKey (concatD d t) k = (hasKey d k || hasKey t k) := by
  induction d
  case dcons k' v' rest ih1 ih2 =>
    by_cases h' : k' = k
    · simp [concatD, hasKey, lookupD, h']
    · simp only [concatD, hasKey, lookupD, if_neg h']
      simpa [hasKey] using ih2
  all_goals simp [concatD, hasKey, lookupD]

theorem lookupD_mapVals (f : Val → Val) (d : Val) (k : String) :
    lookupD (mapVals f d) k = (lookupD d k).map f := by
  induction d
  case dcons k' v' rest ih1 ih2 =>
    by_cases h : k' = k
    · simp [mapVals, lookupD, h]
    · simp [mapVals, lookupD, h, ih2]
  all_goals simp [mapVals, lookupD]

theorem allVals_lookupD (p : Val → Bool) (d : Val) (k : String) (v : Val)
    (hall : allVals p d = true) (hl : lookupD d k = some v) : p v = true := by
  induction d
  case dcons k' v' rest ih1 ih2 =>
    simp only [allVals, Bool.and_eq_true] at hall
    simp only [lookupD] at hl
    by_cases h : k' = k
    · rw [if_pos h] at hl
      cases hl
      exact hall.1
    · rw [if_neg h] at hl
      exact ih2 hall.2 hl
  all_goals simp [lookupD] at hl

theorem mem_dictKeys_lookupD (d : Val) (k : String) (h : k ∈ dictKeys d) :
    ∃ v, lookupD d k = some v := by
  cases hk : hasKey d k
  · exact absurd h (fun hm => by simp [(hasKey_mem_dictKeys d k).mpr hm] at hk)
  · simp only [hasKey, Option.isSome_iff_exists] at hk
    exact hk

theorem lookupD_updateD_not_hasKey (cat lm : Val) (key : String)
    (h : hasKey lm key = false) :
    lookupD (updateD cat lm) key = lookupD cat key := by
  induction lm generalizing cat
  case dcons k v rest ih1 ih2 =>
    have hl := hasKey_false_lookupD _ _ h
    simp only [lookupD] at hl
    by_cases h' : k = key
    · simp [h'] at hl
    · rw [if_neg h'] at hl
      simp only [updateD]
      rw [ih2 (insertD cat k v) (by simp [hasKey, hl])]
      exact lookupD_insertD_ne cat k key v h'
  all_goals simp [updateD]

theorem isDictSpine_insertD (d : Val) (k : String) (v : Val)
    (h : isDictSpine d = true) : isDictSpine (insertD d k v) = true := by
  induction d
  case dcons k' v' rest ih1 ih2 =>
    simp only [isDictSpine] at h
    by_cases h' : k' = k
    · simp [insertD, h', isDictSpine, h]
    · simp [insertD, h', isDictSpine, ih2 h]
  case dnil => simp [insertD, isDictSpine]
  all_goals simp [isDictSpine] at h

theorem isDictSpine_eraseD (d : Val) (k : String)
    (h : isDictSpine d = true) : isDictSpine (eraseD d k) = true := by
  induction d
  case dcons k' v' rest ih1 ih2 =>
    simp only [isDictSpine] at h
    by_cases h' : k' = k
    · simp [eraseD, h', h]
    · simp [eraseD, h', isDictSpine, ih2 h]
  case dnil => simp [eraseD, isDictSpine]
  all_goals simp [isDictSpine] at h

theorem isDictSpine_concatD (d t : Val)
    (hd : isDictSpine d = true) (ht : isDictSpine t = true) :
    isDictSpine (concatD d t) = true := by
  induction d
  case dcons k v rest ih1 ih2 =>
    simp only [isDictSpine] at hd
    simp [concatD, isDictSpine, ih2 hd]
  case dnil => simpa [concatD]
  all_goals simp [isDictSpine] at hd

theorem dictKeys_mapVals (f : Val → Val) (d : Val) :
    dictKeys (mapVals f d) = dictKeys d := by
  induction d
  case dcons k v rest ih1 ih2 => simp [mapVals, dictKeys, ih2]
  all_goals simp [mapVals, dictKeys]

theorem lookupD_dcons_self (k : String) (v rest : Val) :
    lookupD (.dcons k v rest) k = some v := by
  simp [lookupD]

theorem insertD_dcons_self (k : String) (v rest w : Val) :
    insertD (.dcons k v rest) k w = .dcons k w rest := by
  simp [insertD]

theorem synthKey_ne (module s : String) : module ++ "_" ++ s ≠ module := by
  intro h
  have hlen := congrArg String.length h
  simp only [String.length_append] at hlen
  have h1 : ("_" : String).length = 1 := rfl
  omega

theorem insertD_concatD_single (out : Val) (h : String) (w w' : Val)
    (hfresh : hasKey out h = false) :
    insertD (concatD out (.dcons h w .dnil)) h w' = concatD out (.dcons h w' .dnil) := by
  induction out
  case dcons k v rest ih1 ih2 =>
    have hl := hasKey_false_lookupD _ _ hfresh
    simp only [lookupD] at hl
    by_cases h' : k = h
    · simp [h'] at hl
    · rw [if_neg h'] at hl
      simp [concatD, insertD, if_neg h', ih2 (by simp [hasKey, hl])]
  all_goals simp [concatD, insertD]

/-! ### Claim theorems -/

/-- Claim C1, counterexample: for the scenario input processed with
mode=MODULES, the module-grouped view does contain an entry for `m1`, but that
entry has no top-level `risk` field — contradicting the claim that the
mitigation's fields appear as top-level finding fields of `out["m1"]`
(`Report.__modules_report_formatter` only surfaces fields stored under an
`Entry` key). -/
theorem C1_claim_false :
    (lookupD c1_out ("m1")).isSome = true ∧
      hasKey ((lookupD c1_out ("m1")).getD .vnone) ("risk") = false := by
  constructor <;> decide

/-- Claim C1 amended: the scenario input processed with mode=MODULES maps
`m1` to exactly `{"raw": pformat {'h1': {'other': 1}}, "hosts": ["h1"]}`; the
mitigation's fields are dropped because they are not nested under an `Entry`
key. -/
theorem C1_modules_view_scenario :
    modules_view c1_input =
      some (vdict [("m1",
        vdict [("raw", .vstr (pformat (vdict [("h1", vdict [("other", .vnat 1)])]))),
               ("hosts", vlist [.vstr ("h1")])])]) := by
  decide

/-- Claim C2 (a code bug): with `compare_one` declared in the catalogue and a
host record having no entry for it, the compliance block of `Report.run`
raises `KeyError` at the unconditional `del results[hostname][module]` instead
of proceeding without error as the spec states. -/
theorem C2_flatten_keyerror :
    (compliance_flatten c2_results c2_mods).err = some ("KeyError: compare_one") := by
  decide

/-- Claim C3, counterexample: a module result with no mitigation anywhere is
not replaced by an empty mapping; its original top-level key `other` survives
next to the re-attached `raw` key. -/
theorem C3_claim_false :
    lookupD ((lookupD (raw_finding_split c3_tree) ("h1")).getD .vnone) ("m1") =
      some (vdict [("other", .vnat 1), ("raw", vdict [("other", .vnat 1)])]) ∧
    hasKey ((lookupD ((lookupD (raw_finding_split c3_tree) ("h1")).getD .vnone) ("m1")).getD .vnone)
      ("other") = true := by
  constructor <;> decide

/-- Claim C4, counterexample: a module present in a host record without `raw`
and without `Entry` yields an aggregate containing only the bookkeeping
`hosts` list, and that entry is kept in the view, not dropped. -/
theorem C4_claim_false :
    modules_report_formatter c4_tree (["m1"]) =
      vdict [("m1", vdict [("hosts", vlist [.vstr ("h1")])])] := by
  decide

/-- Claim C5, counterexample: with two hosts carrying `Entry` payloads
`{"a": 1}` and `{"b": 2}` for the same module, the aggregate keeps only the
later host's field `b`; the earlier host's field `a`, absent from the later
host, does not survive — the assignment replaces the aggregate wholesale
instead of merging. -/
theorem C5_claim_false :
    hasKey ((lookupD (modules_report_formatter c5_tree (["m1"])) ("m1")).getD .vnone) ("a") = false ∧
    lookupD ((lookupD (modules_report_formatter c5_tree (["m1"])) ("m1")).getD .vnone) ("b") =
      some (.vnat 2) := by
  constructor <;> decide

/-- Claim C6, counterexample: two hosts declare module `m1` with metadata
`"a"` and `"b"`; after extraction the catalogue holds the later value `"b"`,
so the merge is not non-destructive on key collision. -/
theorem C6_claim_false :
    lookupD (extract_results c6_tree).modules ("m1") = some (.vstr ("b")) ∧
      lookupD (extract_results c6_tree).modules ("m1") ≠ some (.vstr ("a")) := by
  constructor <;> decide

/-- Claim C7, counterexample: when a host's `results` envelope itself contains
a `loaded_modules` key, re-running the Result Extractor on the first run's
output changes the tree again and adds entries to the catalogue — extraction
is not idempotent on arbitrary trees. -/
theorem C7_claim_false :
    (extract_results (extract_results c7_tree).results).modules ≠ .dnil ∧
      (extract_results (extract_results c7_tree).results).results ≠
        (extract_results c7_tree).results := by
  constructor <;> decide

/-- Claim C3 amended: for every (host, module) pair whose module result
contains no non-null `mitigation` value at any depth, the raw/finding split
leaves the module's original mapping in place (all original top-level keys
survive) and merely attaches the captured raw payload under `raw`. -/
theorem C3_no_mitigation_split (results : Val) (h m : String) (r mres : Val)
    (hl : lookupD results h = some r)
    (hlm : lookupD r m = some mres)
    (hnomit : (rec_search_key ("mitigation") mres).filter (fun x => x ≠ .vnone) = []) :
    lookupD ((lookupD (raw_finding_split results) h).getD .vnone) m =
      some (insertD mres ("raw") (eraseD mres ("mitigation"))) := by
  unfold raw_finding_split
  rw [lookupD_mapVals, hl]
  simp only [Option.map_some', Option.getD_some]
  rw [lookupD_mapVals, hlm]
  simp only [Option.map_some', Option.getD_some]
  simp only [split_module]
  rw [hnomit]
  rfl

/-- Witness for C3: at the concrete no-mitigation tree, the split result keeps
the original key and gains a `raw` sibling. -/
theorem C3_no_mitigation_split_witness :
    lookupD ((lookupD (raw_finding_split c3_tree) ("h1")).getD .vnone) ("m1") =
      some (insertD (vdict [("other", .vnat 1)]) ("raw")
        (eraseD (vdict [("other", .vnat 1)]) ("mitigation"))) :=
  C3_no_mitigation_split c3_tree ("h1") ("m1") (vdict [("m1", vdict [("other", .vnat 1)])])
    (vdict [("other", .vnat 1)]) (by decide) (by decide) (by decide)

/-- Claim C6 amended: the catalogue merge of `Report.__extract_results` uses
`dict.update` semantics — on key collision the later host's entry overwrites
the earlier one (last-wins), as the concrete two-host extraction shows. -/
theorem C6_update_last_wins :
    (∀ (cat lm : Val) (k : String) (v : Val),
        lookupD lm k = some v → (dictKeys lm).Nodup →
        lookupD (updateD cat lm) k = some v) ∧
      (extract_results c6_tree).modules = .dcons ("m1") (.vstr ("b")) .dnil := by
  constructor
  · intro cat lm k v
    induction lm generalizing cat
    case dcons k' v' rest ih1 ih2 =>
      intro hl hnd
      simp only [lookupD] at hl
      simp only [dictKeys, List.nodup_cons] at hnd
      by_cases h : k' = k
      · subst h
        rw [if_pos rfl] at hl
        cases hl
        simp only [updateD]
        rw [lookupD_updateD_not_hasKey _ _ _ (by
          cases hk : hasKey rest k'
          · rfl
          · exact absurd ((hasKey_mem_dictKeys rest k').mp hk) hnd.1)]
        exact lookupD_insertD_self cat k' v
      · rw [if_neg h] at hl
        simp only [updateD]
        exact ih2 (insertD cat k' v') hl hnd.2
    all_goals (intro hl hnd; simp [lookupD] at hl)
  · decide

/-- Witness for C6: updating a catalogue already holding `m1 := "a"` with a
host declaring `m1 := "b"` leaves `"b"` in the catalogue. -/
theorem C6_update_last_wins_witness :
    lookupD (updateD (.dcons ("m1") (.vstr ("a")) .dnil) (.dcons ("m1") (.vstr ("b")) .dnil)) ("m1") =
      some (.vstr ("b")) :=
  C6_update_last_wins.1 (.dcons ("m1") (.vstr ("a")) .dnil) (.dcons ("m1") (.vstr ("b")) .dnil)
    ("m1") (.vstr ("b")) (by decide) (by decide)

/-- Folding a function that fixes the state over a list leaves the state
unchanged. -/
theorem foldl_fixed {α β : Type} (f : β → α → β) (st : β) (l : List α)
    (h : ∀ a ∈ l, f st a = st) : l.foldl f st = st := by
  induction l with
  | nil => rfl
  | cons a t ih =>
      rw [List.foldl_cons, h a (List.mem_cons_self a t)]
      exact ih (fun b hb => h b (List.mem_cons_of_mem a hb))

/-- Claim C7 amended: the Result Extractor is a no-op (tree unchanged, empty
catalogue, no error) on any tree none of whose host records contains a
`loaded_modules` key; hence extraction is idempotent whenever the unwrapped
`results` records of the first pass do not themselves contain the reserved
key — but not on arbitrary trees, where the unwrapped record may contain
`loaded_modules` and is then popped again. -/
theorem C7_extract_clean_noop (res : Val)
    (h : allVals (fun r => !(hasKey r ("loaded_modules"))) res = true) :
    extract_results res = ⟨res, .dnil, none⟩ := by
  unfold extract_results
  apply foldl_fixed
  intro hostname hm
  rcases mem_dictKeys_lookupD res hostname hm with ⟨r, hr⟩
  have hp : hasKey r ("loaded_modules") = false := by
    simpa using allVals_lookupD _ res hostname r h hr
  simp [extract_step, hr, hasKey_false_lookupD r _ hp]

/-- Witness for C7: on an already-extracted tree the extractor returns the
tree unchanged with an empty catalogue. -/
theorem C7_extract_clean_noop_witness :
    extract_results (vdict [("h1", vdict [("m1", .vnat 1)])]) =
      ⟨vdict [("h1", vdict [("m1", .vnat 1)])], .dnil, none⟩ :=
  C7_extract_clean_noop (vdict [("h1", vdict [("m1", .vnat 1)])]) (by decide)

/-- Claim C9: a host record carrying `loaded_modules` but no `results` key
makes `Report.__extract_results` raise `KeyError` — and by then the
`loaded_modules` key has already been deleted from the record and its contents
merged into the catalogue. -/
theorem C9_extract_missing_results (host : String) (r lm : Val)
    (h1 : lookupD r ("loaded_modules") = some lm)
    (h2 : hasKey r ("results") = false) :
    extract_results (.dcons host r .dnil) =
      ⟨.dcons host (eraseD r ("loaded_modules")) .dnil, updateD .dnil lm,
        some ("KeyError: results")⟩ := by
  unfold extract_results
  have hres : lookupD (eraseD r ("loaded_modules")) ("results") = none := by
    rw [lookupD_eraseD_ne r _ _ (by decide)]
    exact hasKey_false_lookupD r _ h2
  simp [dictKeys, extract_step, lookupD, h1, hres, insertD]

/-- Witness for C9: the concrete host record without `results` produces the
`KeyError` with `loaded_modules` already removed. -/
theorem C9_extract_missing_results_witness :
    extract_results (vdict [("h1", c9_rec)]) =
      ⟨.dcons ("h1") (eraseD c9_rec ("loaded_modules")) .dnil,
        updateD .dnil (vdict [("m1", .dnil)]), some ("KeyError: results")⟩ :=
  C9_extract_missing_results ("h1") c9_rec (vdict [("m1", .dnil)]) (by decide) (by decide)

/-- Claim C5 amended: in the module-grouped formatter a host's `Entry` payload
replaces the module's aggregate wholesale (the last host with an `Entry` wins
entirely; fields contributed by earlier hosts do not survive unless repeated),
and within a single `Entry` the wrap is case-insensitive, so inserting `Foo`
then `foo` yields a single surviving field. -/
theorem C5_entry_last_wins :
    (∀ (module : String) (results : Val) (agg : Agg) (raws : Val) (hosts : List String),
        (moduleHostLoop module results agg raws hosts).1 =
          (match lastEntryFor module results with
           | some ev => Agg.mk (cidOf ev) true
           | none => agg)) ∧
      cidOf (vdict [("Foo", .vnat 1), ("foo", .vnat 2)]) = .dcons ("foo") (.vnat 2) .dnil := by
  constructor
  · intro module results
    induction results
    case dcons hostname hostRec rest ih1 ih2 =>
      intro agg raws hosts
      cases hm : lookupD hostRec module with
      | some mres =>
          cases hE : lookupD mres ("Entry") with
          | some ev =>
              simp only [moduleHostLoop, hm, hE, lastEntryFor]
              rw [ih2]
              cases lastEntryFor module rest <;> rfl
          | none =>
              simp only [moduleHostLoop, hm, hE, lastEntryFor]
              rw [ih2]
              cases lastEntryFor module rest <;> rfl
      | none =>
          simp only [moduleHostLoop, hm, lastEntryFor]
          rw [ih2]
          cases lastEntryFor module rest <;> rfl
    all_goals (intro agg raws hosts; simp [moduleHostLoop, lastEntryFor])
  · decide

/-- Membership after replacing an aggregate: the element is an old one or the
replacement. -/
theorem mem_setAgg (l : List (String × Agg)) (k : String) (a : Agg) (p : String × Agg)
    (h : p ∈ setAgg l k a) : p ∈ l ∨ p = (k, a) := by
  induction l with
  | nil => simpa [setAgg] using h
  | cons q rest ih =>
      obtain ⟨qk, qa⟩ := q
      simp only [setAgg] at h
      by_cases hq : qk = k
      · rw [if_pos hq] at h
        rcases List.mem_cons.mp h with h | h
        · exact Or.inr h
        · exact Or.inl (List.mem_cons_of_mem _ h)
      · rw [if_neg hq] at h
        rcases List.mem_cons.mp h with h | h
        · exact Or.inl (h ▸ List.mem_cons_self _ _)
        · rcases ih h with h | h
          · exact Or.inl (List.mem_cons_of_mem _ h)
          · exact Or.inr h

/-- Membership after removing an aggregate is membership in the original. -/
theorem mem_eraseAgg (l : List (String × Agg)) (k : String) (p : String × Agg)
    (h : p ∈ eraseAgg l k) : p ∈ l := by
  induction l with
  | nil => simp [eraseAgg] at h
  | cons q rest ih =>
      obtain ⟨qk, qa⟩ := q
      simp only [eraseAgg] at h
      by_cases hq : qk = k
      · rw [if_pos hq] at h
        exact List.mem_cons_of_mem _ h
      · rw [if_neg hq] at h
        rcases List.mem_cons.mp h with h | h
        · exact h ▸ List.mem_cons_self _ _
        · exact List.mem_cons_of_mem _ (ih h)

/-- Replacing the key of a freshly appended aggregate rewrites exactly that
appended element. -/
theorem setAgg_append_fresh (l : List (String × Agg)) (k : String) (a b : Agg)
    (hfresh : ∀ q ∈ l, q.1 ≠ k) :
    setAgg (l ++ [(k, a)]) k b = l ++ [(k, b)] := by
  induction l with
  | nil => simp [setAgg]
  | cons q rest ih =>
      obtain ⟨qk, qa⟩ := q
      have hqk : qk ≠ k := hfresh (qk, qa) (List.mem_cons_self _ _)
      simp only [List.cons_append, setAgg, if_neg hqk]
      exact congrArg (fun t => (qk, qa) :: t) (ih (fun q hq => hfresh q (List.mem_cons_of_mem _ hq)))

/-- Removing the key of a freshly appended aggregate removes exactly that
appended element. -/
theorem eraseAgg_append_fresh (l : List (String × Agg)) (k : String) (a : Agg)
    (hfresh : ∀ q ∈ l, q.1 ≠ k) :
    eraseAgg (l ++ [(k, a)]) k = l := by
  induction l with
  | nil => simp [eraseAgg]
  | cons q rest ih =>
      obtain ⟨qk, qa⟩ := q
      have hqk : qk ≠ k := hfresh (qk, qa) (List.mem_cons_self _ _)
      simp only [List.cons_append, eraseAgg, if_neg hqk]
      exact congrArg (fun t => (qk, qa) :: t) (ih (fun q hq => hfresh q (List.mem_cons_of_mem _ hq)))

/-- If a key is not found, no element carries it. -/
theorem findAgg_none_keys (l : List (String × Agg)) (k : String)
    (h : findAgg l k = none) : ∀ q ∈ l, q.1 ≠ k := by
  induction l with
  | nil => intro q hq; simp at hq
  | cons q rest ih =>
      obtain ⟨qk, qa⟩ := q
      simp only [findAgg] at h
      by_cases hq : qk = k
      · rw [if_pos hq] at h; exact absurd h (by simp)
      · rw [if_neg hq] at h
        intro q' hq'
        rcases List.mem_cons.mp hq' with h' | h'
        · rw [h']; exact hq
        · exact ih h q' h'

/-- Finalising a module aggregate (over the conditionally initialised `out1`)
preserves the invariant that every stored aggregate is non-empty. -/
theorem finalizeAgg_if_inv (out : List (String × Agg)) (module : String) (agg3 : Agg)
    (hinv : ∀ p ∈ out, p.2.val ≠ .dnil) :
    ∀ p ∈ finalizeAgg
        (if (findAgg out module).isSome then out else out ++ [(module, Agg.mk .dnil false)])
        module agg3, p.2.val ≠ .dnil := by
  intro p hp
  unfold finalizeAgg at hp
  by_cases hpres : (findAgg out module).isSome = true
  · rw [if_pos hpres] at hp
    split at hp
    · exact hinv p (mem_eraseAgg out module p hp)
    · next hdn =>
        rcases mem_setAgg out module _ p hp with h | h
        · exact hinv p h
        · rw [h]
          simpa using hdn
  · rw [if_neg hpres] at hp
    have hnone : findAgg out module = none := by
      cases hfa : findAgg out module
      · rfl
      · rw [hfa] at hpres; simp at hpres
    have hkeys := findAgg_none_keys out module hnone
    split at hp
    · rw [eraseAgg_append_fresh out module _ hkeys] at hp
      exact hinv p hp
    · next hdn =>
        rw [setAgg_append_fresh out module _ _ hkeys] at hp
        rcases List.mem_append.mp hp with h | h
        · exact hinv p h
        · simp only [List.mem_singleton] at h
          rw [h]
          simpa using hdn

/-- One step of the module-grouped formatter preserves the invariant that
every stored aggregate is non-empty. -/
theorem modules_report_step_inv (results : Val) (out : List (String × Agg)) (module : String)
    (hinv : ∀ p ∈ out, p.2.val ≠ .dnil) :
    ∀ p ∈ modules_report_step results out module, p.2.val ≠ .dnil := by
  intro p hp
  simp only [modules_report_step] at hp
  exact finalizeAgg_if_inv out module _ hinv p hp

/-- The module loop of the formatter preserves the non-emptiness invariant. -/
theorem modules_report_formatter_aux_inv (results : Val) (ms : List String)
    (out : List (String × Agg)) (hinv : ∀ p ∈ out, p.2.val ≠ .dnil) :
    ∀ p ∈ modules_report_formatter_aux results ms out, p.2.val ≠ .dnil := by
  induction ms generalizing out with
  | nil => simpa [modules_report_formatter_aux] using hinv
  | cons m rest ih =>
      simp only [modules_report_formatter_aux]
      exact ih (modules_report_step results out m) (modules_report_step_inv results out m hinv)

/-- A successful lookup in the rendered aggregate dictionary comes from a
stored aggregate. -/
theorem lookupD_vdict_map (l : List (String × Agg)) (m : String) (v : Val)
    (h : lookupD (vdict (l.map (fun p => (p.1, p.2.val)))) m = some v) :
    ∃ p ∈ l, p.2.val = v := by
  induction l with
  | nil => simp [vdict, lookupD] at h
  | cons q rest ih =>
      obtain ⟨qk, qa⟩ := q
      simp only [List.map, vdict, lookupD] at h
      by_cases hq : qk = m
      · rw [if_pos hq] at h
        injection h with hv
        exact ⟨(qk, qa), List.mem_cons_self _ _, hv⟩
      · rw [if_neg hq] at h
        rcases ih h with ⟨p, hp, hv⟩
        exact ⟨p, List.mem_cons_of_mem _ hp, hv⟩

/-- Claim C4 amended: every module identifier present in the module-grouped
view maps to a non-empty aggregate (aggregates that end up entirely empty are
deleted from the view), but the non-emptiness may come from bookkeeping alone:
an entry containing only the `hosts` list is kept, not dropped. -/
theorem C4_view_nonempty :
    (∀ (results : Val) (ms : List String) (m : String) (v : Val),
        lookupD (modules_report_formatter results ms) m = some v → v ≠ .dnil) ∧
      modules_report_formatter c4b_tree (["m2"]) =
        vdict [("m2", vdict [("hosts", vlist [.vstr ("hA")])])] := by
  constructor
  · intro results ms m v h
    unfold modules_report_formatter at h
    rcases lookupD_vdict_map _ m v h with ⟨p, hp, hv⟩
    have hne := modules_report_formatter_aux_inv results ms [] (by simp) p hp
    rw [← hv]
    exact hne
  · decide

/-- Witness for C4: the non-emptiness fact applied at the bookkeeping-only
aggregate produced for `c4_tree`. -/
theorem C4_view_nonempty_witness :
    (vdict [("hosts", vlist [.vstr ("h1")])]) ≠ .dnil :=
  C4_view_nonempty.1 c4_tree (["m1"]) ("m1") (vdict [("hosts", vlist [.vstr ("h1")])]) (by decide)

/-- A synthetic host-record spine never carries the original compliance module
key (synthetic names strictly extend it). -/
theorem hasKey_synthRecOf (module : String) (sheets : Val) :
    hasKey (synthRecOf module sheets) module = false := by
  induction sheets
  case dcons s sv rest ih1 ih2 =>
    by_cases hmit : hasKey sv ("mitigation") = true
    · rw [show synthRecOf module (.dcons s sv rest) =
            .dcons (module ++ "_" ++ s) sv (synthRecOf module rest) by
          simp [synthRecOf, hmit]]
      simp only [hasKey, lookupD, if_neg (synthKey_ne module s)]
      simpa [hasKey] using ih2
    · have hmitF : hasKey sv ("mitigation") = false := by
        cases h2 : hasKey sv ("mitigation")
        · rfl
        · exact absurd h2 hmit
      rw [show synthRecOf module (.dcons s sv rest) = synthRecOf module rest by
          simp [synthRecOf, hmitF]]
      exact ih2
  all_goals simp [synthRecOf, hasKey, lookupD]

/-- A synthetic catalogue spine never carries the original compliance module
key. -/
theorem hasKey_synthCatOf (module : String) (sheets : Val) :
    hasKey (synthCatOf module sheets) module = false := by
  induction sheets
  case dcons s sv rest ih1 ih2 =>
    by_cases hmit : hasKey sv ("mitigation") = true
    · rw [show synthCatOf module (.dcons s sv rest) =
            .dcons (module ++ "_" ++ s) (.vstr ("")) (synthCatOf module rest) by
          simp [synthCatOf, hmit]]
      simp only [hasKey, lookupD, if_neg (synthKey_ne module s)]
      simpa [hasKey] using ih2
    · have hmitF : hasKey sv ("mitigation") = false := by
        cases h2 : hasKey sv ("mitigation")
        · rfl
        · exact absurd h2 hmit
      rw [show synthCatOf module (.dcons s sv rest) = synthCatOf module rest by
          simp [synthCatOf, hmitF]]
      exact ih2
  all_goals simp [synthCatOf, hasKey, lookupD]

/-- The sheet loop appends exactly the synthetic entries for the sheets that
carry a mitigation, both to the host record and to the catalogue, provided the
synthetic names are fresh and mutually distinct. -/
theorem flatten_sheets_spec (module : String) (sheets : Val) :
    ∀ (r mods : Val),
      isDictSpine r = true → isDictSpine mods = true →
      (∀ s ∈ dictKeys sheets, hasKey r (module ++ "_" ++ s) = false) →
      (∀ s ∈ dictKeys sheets, hasKey mods (module ++ "_" ++ s) = false) →
      ((dictKeys sheets).map (fun s => module ++ "_" ++ s)).Nodup →
      flatten_sheets module sheets r mods =
        (concatD r (synthRecOf module sheets), concatD mods (synthCatOf module sheets)) := by
  induction sheets
  case dcons s sv rest ih1 ih2 =>
    intro r mods hr hm hfr hfm hnd
    simp only [dictKeys, List.map, List.nodup_cons] at hnd
    have hfr0 : hasKey r (module ++ "_" ++ s) = false := hfr s (by simp [dictKeys])
    have hfm0 : hasKey mods (module ++ "_" ++ s) = false := hfm s (by simp [dictKeys])
    by_cases hmit : hasKey sv ("mitigation") = true
    · have hfr2 : ∀ s' ∈ dictKeys rest,
          hasKey (insertD r (module ++ "_" ++ s) sv) (module ++ "_" ++ s') = false := by
        intro s' hs'
        rw [hasKey_insertD]
        have hmem : (module ++ "_" ++ s') ∈ (dictKeys rest).map (fun t => module ++ "_" ++ t) :=
          List.mem_map_of_mem _ hs'
        have hne : (module ++ "_" ++ s) ≠ (module ++ "_" ++ s') := by
          intro he
          have hni := hnd.1
          rw [he] at hni
          exact hni hmem
        simp [hne, hfr s' (List.mem_cons_of_mem _ hs')]
      have hfm2 : ∀ s' ∈ dictKeys rest,
          hasKey (insertD mods (module ++ "_" ++ s) (.vstr (""))) (module ++ "_" ++ s') = false := by
        intro s' hs'
        rw [hasKey_insertD]
        have hmem : (module ++ "_" ++ s') ∈ (dictKeys rest).map (fun t => module ++ "_" ++ t) :=
          List.mem_map_of_mem _ hs'
        have hne : (module ++ "_" ++ s) ≠ (module ++ "_" ++ s') := by
          intro he
          have hni := hnd.1
          rw [he] at hni
          exact hni hmem
        simp [hne, hfm s' (List.mem_cons_of_mem _ hs')]
      rw [show flatten_sheets module (.dcons s sv rest) r mods =
            flatten_sheets module rest (insertD r (module ++ "_" ++ s) sv)
              (insertD mods (module ++ "_" ++ s) (.vstr (""))) by
          simp [flatten_sheets, hmit]]
      rw [show synthRecOf module (.dcons s sv rest) =
            .dcons (module ++ "_" ++ s) sv (synthRecOf module rest) by
          simp [synthRecOf, hmit]]
      rw [show synthCatOf module (.dcons s sv rest) =
            .dcons (module ++ "_" ++ s) (.vstr ("")) (synthCatOf module rest) by
          simp [synthCatOf, hmit]]
      rw [ih2 _ _ (isDictSpine_insertD _ _ _ hr) (isDictSpine_insertD _ _ _ hm) hfr2 hfm2 hnd.2]
      rw [insertD_fresh r _ sv hfr0, insertD_fresh mods _ _ hfm0, concatD_assoc, concatD_assoc]
      rfl
    · rw [show flatten_sheets module (.dcons s sv rest) r mods = flatten_sheets module rest r mods by
          simp [flatten_sheets, hmit]]
      rw [show synthRecOf module (.dcons s sv rest) = synthRecOf module rest by
          simp [synthRecOf, hmit]]
      rw [show synthCatOf module (.dcons s sv rest) = synthCatOf module rest by
          simp [synthCatOf, hmit]]
      exact ih2 r mods hr hm (fun s' hs' => hfr s' (List.mem_cons_of_mem _ hs'))
        (fun s' hs' => hfm s' (List.mem_cons_of_mem _ hs')) hnd.2
  all_goals
    (intro r mods hr hm hfr hfm hnd
     simp [flatten_sheets, synthRecOf, synthCatOf, concatD_dnil r hr, concatD_dnil mods hm])

/-- Claim C8: for a single-host tree whose record carries the compliance
module `compare_one` with a dictionary of sheets (fresh, mutually distinct
synthetic names), flattening succeeds; the host record loses `compare_one` and
gains exactly one synthetic module `compare_one_<sheet>` per sheet containing
a `mitigation` key (`synthRecOf`), the catalogue likewise
(`synthCatOf`), and the original compliance identifier is absent from both
afterwards. -/
theorem C8_compliance_flatten_single_host (h : String) (r sheets mods : Val)
    (hr : isDictSpine r = true) (hm : isDictSpine mods = true)
    (hsheets : lookupD r ("compare_one") = some sheets)
    (hsp : isDictSpine sheets = true)
    (hcat : hasKey mods ("compare_one") = true)
    (hfr : ∀ s ∈ dictKeys sheets, hasKey r ("compare_one" ++ "_" ++ s) = false)
    (hfm : ∀ s ∈ dictKeys sheets, hasKey mods ("compare_one" ++ "_" ++ s) = false)
    (hnd : ((dictKeys sheets).map (fun s => "compare_one" ++ "_" ++ s)).Nodup)
    (hndr : (dictKeys r).Nodup) (hndm : (dictKeys mods).Nodup) :
    compliance_flatten (.dcons h r .dnil) mods =
      ⟨.dcons h (concatD (eraseD r ("compare_one")) (synthRecOf ("compare_one") sheets)) .dnil,
       concatD (eraseD mods ("compare_one")) (synthCatOf ("compare_one") sheets), none⟩ ∧
    hasKey (concatD (eraseD r ("compare_one")) (synthRecOf ("compare_one") sheets))
      ("compare_one") = false ∧
    hasKey (concatD (eraseD mods ("compare_one")) (synthCatOf ("compare_one") sheets))
      ("compare_one") = false := by
  have key_r : hasKey r ("compare_one") = true := by simp [hasKey, hsheets]
  have hpair :
      (if truthy sheets then flatten_sheets ("compare_one") sheets r mods else (r, mods)) =
        (concatD r (synthRecOf ("compare_one") sheets),
         concatD mods (synthCatOf ("compare_one") sheets)) := by
    clear hsheets
    revert hsp hfr hfm hnd
    cases sheets
    case dnil =>
      intro hsp hfr hfm hnd
      simp [truthy, synthRecOf, synthCatOf, concatD_dnil r hr, concatD_dnil mods hm]
    case dcons s sv rest =>
      intro hsp hfr hfm hnd
      rw [if_pos (show truthy (Val.dcons s sv rest) = true from rfl)]
      exact flatten_sheets_spec ("compare_one") (.dcons s sv rest) r mods hr hm hfr hfm hnd
    all_goals (intro hsp hfr hfm hnd; simp [isDictSpine] at hsp)
  have hkey1 : hasKey (concatD r (synthRecOf ("compare_one") sheets)) ("compare_one") = true := by
    rw [hasKey_concatD, key_r]
    rfl
  have hstep :
      flatten_host_step ("compare_one") ⟨.dcons h r .dnil, mods, none⟩ h =
        ⟨.dcons h (concatD (eraseD r ("compare_one")) (synthRecOf ("compare_one") sheets)) .dnil,
         concatD mods (synthCatOf ("compare_one") sheets), none⟩ := by
    simp only [flatten_host_step, Option.isSome_none, Bool.false_eq_true, if_false,
      lookupD_dcons_self, Option.getD_some, hsheets, hpair, hkey1, if_true,
      insertD_dcons_self]
    rw [eraseD_concatD r _ _ (hasKey_synthRecOf ("compare_one") sheets)]
  refine ⟨?_, ?_, ?_⟩
  · have hcond : (hasKey mods ("compare_one") || hasKey mods ("compare_many")) = true := by
      rw [hcat]; rfl
    simp only [compliance_flatten, hcond, hcat, if_true, dictKeys, List.foldl_cons,
      List.foldl_nil, hstep, Option.isSome_none, Bool.false_eq_true, if_false]
    rw [eraseD_concatD mods _ _ (hasKey_synthCatOf ("compare_one") sheets)]
    simp
  · rw [hasKey_concatD, hasKey_eraseD_self r _ hndr, hasKey_synthRecOf]
    rfl
  · rw [hasKey_concatD, hasKey_eraseD_self mods _ hndm, hasKey_synthCatOf]
    rfl

/-- Witness for C8: the scenario of the spec — sheets `s1` (with mitigation)
and `s2` (without) — satisfies the hypotheses, and flattening yields exactly
the synthetic module `compare_one_s1` while `compare_one` disappears. -/
theorem C8_compliance_flatten_witness :
    hasKey c8_mods ("compare_one") = true ∧
      (compliance_flatten (.dcons ("host1") c8_rec .dnil) c8_mods =
        ⟨.dcons ("host1")
            (concatD (eraseD c8_rec ("compare_one")) (synthRecOf ("compare_one") c8_sheets)) .dnil,
         concatD (eraseD c8_mods ("compare_one")) (synthCatOf ("compare_one") c8_sheets), none⟩ ∧
       hasKey (concatD (eraseD c8_rec ("compare_one")) (synthRecOf ("compare_one") c8_sheets))
         ("compare_one") = false ∧
       hasKey (concatD (eraseD c8_mods ("compare_one")) (synthCatOf ("compare_one") c8_sheets))
         ("compare_one") = false) :=
  ⟨by decide,
   C8_compliance_flatten_single_host ("host1") c8_rec c8_sheets c8_mods (by decide) (by decide)
     (by decide) (by decide) (by decide) (by decide) (by decide) (by decide) (by decide)
     (by decide)⟩

/-- Keys emitted by the host-grouped per-host loop: an accumulator key or a
module of the record whose result carries `Entry`. -/
theorem hasKey_hostModulesLoop (r : Val) (m : String) :
    ∀ acc : Val, hasKey (hostModulesLoop r acc) m = (hasKey acc m || hasEntryModule r m) := by
  induction r
  case dcons module mres rest ih1 ih2 =>
    intro acc
    cases hE : lookupD mres ("Entry") with
    | some ev =>
        simp only [hostModulesLoop, hE]
        rw [ih2, hasKey_insertD]
        simp only [hasEntryModule]
        have hEt : hasKey mres ("Entry") = true := by simp [hasKey, hE]
        rw [hEt]
        cases hasKey acc m <;> cases hasEntryModule rest m <;>
          cases hdm : decide (module = m) <;> simp [hdm]
    | none =>
        simp only [hostModulesLoop, hE]
        rw [ih2]
        simp only [hasEntryModule]
        have hEf : hasKey mres ("Entry") = false := by simp [hasKey, hE]
        rw [hEf]
        simp
  all_goals (intro acc; simp [hostModulesLoop, hasEntryModule])

/-- A host none of whose module results carries `Entry` contributes nothing in
the host-grouped formatter. -/
theorem hostModulesLoop_noEntry (r : Val) :
    ∀ acc : Val, allVals (fun mres => !(hasKey mres ("Entry"))) r = true →
      hostModulesLoop r acc = acc := by
  induction r
  case dcons module mres rest ih1 ih2 =>
    intro acc hall
    simp only [allVals, Bool.and_eq_true] at hall
    have hE : lookupD mres ("Entry") = none :=
      hasKey_false_lookupD _ _ (by simpa using hall.1)
    simp only [hostModulesLoop, hE]
    exact ih2 _ hall.2
  all_goals (intro acc hall; simp [hostModulesLoop])

/-- A key absent from a record has no `Entry`-carrying occurrence. -/
theorem hasEntryModule_not_mem (r : Val) (m : String) (h : m ∉ dictKeys r) :
    hasEntryModule r m = false := by
  induction r
  case dcons k v rest ih1 ih2 =>
    simp only [dictKeys, List.mem_cons, not_or] at h
    have hk : decide (k = m) = false := by
      simp only [decide_eq_false_iff_not]
      exact fun he => h.1 he.symm
    simp [hasEntryModule, hk, ih2 h.2]
  all_goals simp [hasEntryModule]

/-- With unique keys, a module whose stored result has no `Entry` has no
`Entry`-carrying occurrence at all. -/
theorem hasEntryModule_lookup_false (r : Val) (m : String) (mres : Val)
    (hnd : (dictKeys r).Nodup) (hl : lookupD r m = some mres)
    (hE : hasKey mres ("Entry") = false) : hasEntryModule r m = false := by
  induction r
  case dcons k v rest ih1 ih2 =>
    simp only [dictKeys, List.nodup_cons] at hnd
    simp only [lookupD] at hl
    by_cases hk : k = m
    · subst hk
      rw [if_pos rfl] at hl
      injection hl with hv
      subst hv
      simp only [hasEntryModule]
      rw [hE, hasEntryModule_not_mem rest k hnd.1]
      simp
    · rw [if_neg hk] at hl
      simp only [hasEntryModule]
      have hkd : decide (k = m) = false := by simp [hk]
      rw [hkd, ih2 hnd.2 hl]
      simp
  all_goals simp [lookupD] at hl

/-- Characterisation of the host loop of `Report.__hosts_report_formatter`
over fresh accumulators: each host of the input is mapped, in order, to the
output of its module loop started from an empty record. -/
theorem hosts_report_formatter_aux_spec (d : Val) :
    ∀ out : Val, isDictSpine d = true → isDictSpine out = true →
      (dictKeys d).Nodup →
      (∀ k ∈ dictKeys d, hasKey out k = false) →
      hosts_report_formatter_aux d out =
        concatD out (mapVals (fun r => hostModulesLoop r .dnil) d) := by
  induction d
  case dcons h r rest ih1 ih2 =>
    intro out hd hout hnd hfresh
    simp only [isDictSpine] at hd
    simp only [dictKeys, List.nodup_cons] at hnd
    have hfh : hasKey out h = false := hfresh h (by simp [dictKeys])
    have hstep : hosts_report_formatter_aux (.dcons h r rest) out =
        hosts_report_formatter_aux rest
          (insertD (insertD out h .dnil) h
            (hostModulesLoop r ((lookupD (insertD out h .dnil) h).getD .dnil))) := by
      simp [hosts_report_formatter_aux, hfh]
    rw [hstep, lookupD_insertD_self out h .dnil]
    simp only [Option.getD_some]
    rw [insertD_fresh out h .dnil hfh, insertD_concatD_single out h .dnil _ hfh]
    have hfresh2 : ∀ k ∈ dictKeys rest,
        hasKey (concatD out (.dcons h (hostModulesLoop r .dnil) .dnil)) k = false := by
      intro k hk
      rw [hasKey_concatD]
      have h1 : hasKey out k = false := hfresh k (List.mem_cons_of_mem _ hk)
      have h2 : hasKey (Val.dcons h (hostModulesLoop r .dnil) .dnil) k = false := by
        simp only [hasKey, lookupD]
        rw [if_neg (fun he => hnd.1 (by rw [he]; exact hk))]
        rfl
      rw [h1, h2]
      rfl
    rw [ih2 (concatD out (.dcons h (hostModulesLoop r .dnil) .dnil)) hd
          (isDictSpine_concatD out _ hout (by simp [isDictSpine])) hnd.2 hfresh2]
    rw [concatD_assoc]
    rfl
  case dnil =>
    intro out hd hout hnd hfresh
    simp [hosts_report_formatter_aux, mapVals, concatD_dnil out hout]
  all_goals (intro out hd hout hnd hfresh; simp [isDictSpine] at hd)

/-- Claim C10: the host-grouped formatter emits an entry for every hostname of
the input (in order); a host none of whose module results carries `Entry` is
mapped to the empty record; and a module whose result has a `raw` payload but
no `Entry` key is omitted entirely from that host's entry. -/
theorem C10_hosts_formatter (results : Val)
    (hsp : isDictSpine results = true)
    (hnd : (dictKeys results).Nodup) :
    dictKeys (hosts_report_formatter results) = dictKeys results ∧
    (∀ h r, lookupD results h = some r →
        allVals (fun mres => !(hasKey mres ("Entry"))) r = true →
        lookupD (hosts_report_formatter results) h = some .dnil) ∧
    (∀ h r m mres, lookupD results h = some r →
        (dictKeys r).Nodup →
        lookupD r m = some mres →
        hasKey mres ("raw") = true →
        hasKey mres ("Entry") = false →
        hasKey ((lookupD (hosts_report_formatter results) h).getD .vnone) m = false) := by
  have hchar : hosts_report_formatter results =
      mapVals (fun r => hostModulesLoop r .dnil) results := by
    unfold hosts_report_formatter
    rw [hosts_report_formatter_aux_spec results .dnil hsp (by simp [isDictSpine]) hnd
      (fun k _ => by simp [hasKey, lookupD])]
    rfl
  refine ⟨?_, ?_, ?_⟩
  · rw [hchar, dictKeys_mapVals]
  · intro h r hl hall
    rw [hchar, lookupD_mapVals, hl]
    simp only [Option.map_some']
    rw [hostModulesLoop_noEntry r .dnil hall]
  · intro h r m mres hl hndr hlm hraw hE
    rw [hchar, lookupD_mapVals, hl]
    simp only [Option.map_some', Option.getD_some]
    rw [hasKey_hostModulesLoop]
    rw [hasEntryModule_lookup_false r m mres hndr hlm hE]
    simp [hasKey, lookupD]

/-- Witness for C10: the concrete tree whose only module has a raw payload but
no `Entry` — its host appears mapped to the empty record and the module is
omitted. -/
theorem C10_hosts_formatter_witness :
    dictKeys (hosts_report_formatter c10_tree) = dictKeys c10_tree ∧
      lookupD (hosts_report_formatter c10_tree) ("hA") = some .dnil ∧
      hasKey ((lookupD (hosts_report_formatter c10_tree) ("hA")).getD .vnone) ("m1") = false := by
  have H := C10_hosts_formatter c10_tree (by decide) (by decide)
  refine ⟨H.1, ?_, ?_⟩
  · exact H.2.1 ("hA") (vdict [("m1", vdict [("raw", vdict [("x", .vnat 1)])])])
      (by decide) (by decide)
  · exact H.2.2 ("hA") (vdict [("m1", vdict [("raw", vdict [("x", .vnat 1)])])])
      ("m1") (vdict [("raw", vdict [("x", .vnat 1)])])
      (by decide) (by decide) (by decide) (by decide) (by decide)
